import Mathlib

/-!
Verification of the promise/executor package.

The embedding mirrors the Go source:
  * `Promise` models the struct in promise.go: the `done` channel is a Bool
    (closed or not), `res` models the `interface{}` result (`none` = nil),
    `err` the error field (`none` = nil).
  * Go `interface{}` values are modelled by `GoVal` (scalars abstracted to
    numbered atoms, plus slices, which `WhenAll` produces).
  * Go `error` values are modelled by `GoErr`, with the two sentinel errors
    of the package and numbered atoms for user and context errors.
  * Blocking reads return `Option`: `none` means the call blocks.
-/

namespace PromiseSpec

/-- Go error values: the two sentinels of the package (`ErrCanceled`,
`ErrExecutorStopped`), context errors as returned by `ctx.Err()`, and
arbitrary user errors. -/
inductive GoErr where
  | canceled
  | executorStopped
  | ctxError (n : Nat)
  | userError (n : Nat)
deriving DecidableEq, Repr

/-- Go `interface\x7b\x7d` values stored in promises: an abstract scalar atom, or a
slice of values (`[]interface\x7b\x7d`, as built by `WhenAll`). -/
inductive GoVal where
  | prim (n : Nat)
  | list (l : List (Option GoVal))

/-- The `Promise` struct of promise.go: `done` is whether the `done` channel
has been closed, `res` and `err` are the stored result and error
(`none` = Go nil). -/
structure Promise where
  done : Bool
  res : Option GoVal
  err : Option GoErr

/-- Go `New()`: a fresh pending promise (`done` channel open, zero fields). -/
def New : Promise := { done := false, res := none, err := none }

/-- Go `finalize(v, err)`: the select on the done channel takes the
`<-p.Done()` branch and returns when the channel is already closed;
otherwise the default branch stores the pair and closes the channel.
(This models the sequential semantics of the select; the interleaved
semantics of two concurrent calls is modelled separately below.) -/
def Promise.finalize (p : Promise) (v : Option GoVal) (e : Option GoErr) : Promise :=
  if p.done then p else { done := true, res := v, err := e }

/-- Go `Resolve(v)`: `finalize(v, nil)`. The argument is `Option` because a
Go caller may resolve with a nil `interface\x7b\x7d` (as `WhenAny` of zero inputs
does). -/
def Promise.Resolve (p : Promise) (v : Option GoVal) : Promise :=
  p.finalize v none

/-- Go `Reject(err)`: `finalize(nil, err)`. -/
def Promise.Reject (p : Promise) (e : GoErr) : Promise :=
  p.finalize none (some e)

/-- Go `Cancel()`: `Reject(ErrCanceled)`. -/
def Promise.Cancel (p : Promise) : Promise :=
  p.Reject GoErr.canceled

/-- Go `Result()`: blocks (`none`) until the done channel is closed, then
returns the stored `(res, err)` pair. -/
def Promise.Result (p : Promise) : Option (Option GoVal × Option GoErr) :=
  if p.done then some (p.res, p.err) else none

/-- A Go `context.Context` as seen by `ResultWithContext`: whether its Done
channel has fired, and what `ctx.Err()` returns once it has. -/
structure Ctx where
  done : Bool
  err : GoErr

/-- Go `ResultWithContext(ctx)`: a select racing the promise's done channel
against the context's. When only one of the two is ready the select is
deterministic; when the promise is done its branch is taken here (the
theorems below only constrain states where a single branch is ready). -/
def Promise.ResultWithContext (p : Promise) (ctx : Ctx) :
    Option (Option GoVal × Option GoErr) :=
  if p.done then some (p.res, p.err)
  else if ctx.done then some (none, some ctx.err)
  else none

/-- Go `Canceled()`: a non-blocking select — false while the done channel is
open, otherwise whether the stored error is the `ErrCanceled` sentinel. -/
def Promise.Canceled (p : Promise) : Bool :=
  if p.done then decide (p.err = some GoErr.canceled) else false

/-- Go `CancelAll(p...)`: calls `Cancel` on each promise in argument order. -/
def CancelAll (ps : List Promise) : List Promise :=
  ps.map Promise.Cancel

/-- One of the three finalizing entry points of the package, with its
argument. -/
inductive FinalOp where
  | resolve (v : Option GoVal)
  | reject (e : GoErr)
  | cancel

/-- Apply a finalizing entry point to a promise. -/
def applyOp (p : Promise) : FinalOp → Promise
  | FinalOp.resolve v => p.Resolve v
  | FinalOp.reject e => p.Reject e
  | FinalOp.cancel => p.Cancel

/-- The `(res, err)` pair each finalizing entry point stores when it is the
first to take effect. -/
def opPair : FinalOp → Option GoVal × Option GoErr
  | FinalOp.resolve v => (v, none)
  | FinalOp.reject e => (none, some e)
  | FinalOp.cancel => (none, some GoErr.canceled)

/-!
Interleaved semantics of `finalize`. The Go body is

  select \x7b case <-p.Done(): return; default: p.res = v; p.err = err; close(p.done) \x7d

which performs two separately observable machine steps: the readiness check
of the select, and the write-and-close of the default branch. The model
below splits a `finalize` call into exactly these two steps and counts how
many times `close(p.done)` executes (in Go, a second `close` of the same
channel panics at runtime).
-/

/-- Program counter of one in-flight `finalize` call: not yet at the select,
past the select's default branch (check passed, channel seen open), or
returned. -/
inductive FinPc where
  | start
  | defaultTaken
  | returned

/-- One in-flight `finalize(v, e)` call: its arguments and program counter. -/
structure FinCall where
  v : Option GoVal
  e : Option GoErr
  pc : FinPc

/-- Shared state seen by concurrent `finalize` calls: the promise itself and
the number of times `close(done)` has executed. -/
structure RaceState where
  p : Promise
  closes : Nat

/-- The select step of one `finalize` call: if the done channel is closed the
call returns; otherwise it takes the default branch. -/
def stepCheck (s : RaceState) (c : FinCall) : RaceState × FinCall :=
  match c.pc with
  | FinPc.start =>
      if s.p.done then (s, { c with pc := FinPc.returned })
      else (s, { c with pc := FinPc.defaultTaken })
  | _ => (s, c)

/-- The default-branch step of one `finalize` call: store the pair and close
the done channel (incrementing the close counter). -/
def stepWrite (s : RaceState) (c : FinCall) : RaceState × FinCall :=
  match c.pc with
  | FinPc.defaultTaken =>
      ({ p := { done := true, res := c.v, err := c.e }, closes := s.closes + 1 },
       { c with pc := FinPc.returned })
  | _ => (s, c)

/-- Running a `finalize` call to completion without interleaving (check, then
write, atomically) agrees with the sequential model `Promise.finalize`. -/
def runAlone (s : RaceState) (c : FinCall) : RaceState × FinCall :=
  let (s1, c1) := stepCheck s c
  stepWrite s1 c1

/-- The schedule in which two concurrent `finalize` calls both pass the
select's readiness check before either writes: check₁, check₂, write₁,
write₂, starting from a fresh promise. Call 1 is `Resolve(prim 1)`, call 2
is `Resolve(prim 2)`. -/
def raceDemo : RaceState :=
  let s0 : RaceState := { p := New, closes := 0 }
  let c1 : FinCall := { v := some (GoVal.prim 1), e := none, pc := FinPc.start }
  let c2 : FinCall := { v := some (GoVal.prim 2), e := none, pc := FinPc.start }
  let (s1, c1a) := stepCheck s0 c1
  let (s2, _c2a) := stepCheck s1 c2
  let (s3, _c1b) := stepWrite s2 c1a
  (stepWrite s3 _c2a).1

/-!
The worker pool of the executor file: `Executor` holds the stop channel
(`stopped`), the buffered promise channel (`queue`, FIFO, with capacity
`cap`), and, because Go callers hold pointers to the promises the executor
finalizes, a heap of all promises created through `Exec` (a task refers to
its promise by heap index). The model is the sequential semantics: worker
goroutines are represented by `workerStep` (one worker executing one queued
task), and `Stop` is modelled at the point where `wg.Wait()` has returned,
i.e. the workers have quiesced.
-/

/-- An `executionPromise`: the heap index of its promise and its
`PromiseFunc`, modelled by the `(interface\x7b\x7d, error)` pair the function
returns when run. -/
structure Task where
  pid : Nat
  fn : Option GoVal × Option GoErr

/-- The `Executor` struct: `stopped` is whether `stopCh` is closed, `queue`
the contents of the buffered `promCh` (capacity `cap`), `heap` the promises
created by `Exec` (a `Task.pid` indexes into it). -/
structure Executor where
  stopped : Bool
  cap : Nat
  queue : List Task
  heap : List Promise

/-- Go `StartExecutor(concurrency, maxPendingPromises)`: fresh executor,
open stop channel, empty queue of the given capacity. (The worker count
does not appear in the sequential state; workers are modelled by
`workerStep`.) -/
def StartExecutor (maxPendingPromises : Nat) : Executor :=
  { stopped := false, cap := maxPendingPromises, queue := [], heap := [] }

/-- Go `Cap()`: capacity of the promise channel. -/
def Executor.Cap (ex : Executor) : Nat :=
  ex.cap

/-- The dispatch at the end of the worker loop in `StartExecutor`:
`res, err := p.fn(); if err != nil \x7b p.Reject(err) \x7d else \x7b p.Resolve(res) \x7d`. -/
def workerFinalize (p : Promise) (r : Option GoVal × Option GoErr) : Promise :=
  match r.2 with
  | some e => p.Reject e
  | none => p.Resolve r.1

/-- Go `Exec(fn)`: allocates a fresh promise (its heap index is returned so
the caller can observe it). If the stop channel is closed, the promise is
rejected with `ErrExecutorStopped` and nothing is enqueued. Otherwise the
task is sent on the promise channel; `none` models the send blocking
because the buffer is full. -/
def Executor.Exec (ex : Executor) (fn : Option GoVal × Option GoErr) :
    Option (Nat × Executor) :=
  let pid := ex.heap.length
  if ex.stopped then
    some (pid, { ex with heap := ex.heap ++ [New.Reject GoErr.executorStopped] })
  else if ex.queue.length < ex.cap then
    some (pid, { ex with heap := ex.heap ++ [New], queue := ex.queue ++ [⟨pid, fn⟩] })
  else
    none

/-- One iteration of a worker loop: exits (`none`) if the stop channel is
closed, blocks (`none`) on an empty queue, otherwise dequeues the first
task, runs its function and finalizes its promise. -/
def Executor.workerStep (ex : Executor) : Option Executor :=
  if ex.stopped then none
  else
    match ex.queue with
    | [] => none
    | t :: rest =>
        some { ex with queue := rest,
                       heap := ex.heap.set t.pid
                         (workerFinalize (ex.heap.getD t.pid New) t.fn) }

/-- The drain at the end of `Stop`: reject the promise at heap index `i`
with the given error. -/
def rejectAt (h : List Promise) (i : Nat) (e : GoErr) : List Promise :=
  h.set i ((h.getD i New).Reject e)

/-- Go `Stop()`: returns at once if the stop channel is already closed;
otherwise closes it, waits for the workers (`wg.Wait()`, after which no
worker touches the queue), then drains the queue, rejecting each pending
task's promise with `ErrExecutorStopped`. -/
def Executor.Stop (ex : Executor) : Executor :=
  if ex.stopped then ex
  else
    { ex with stopped := true,
              queue := [],
              heap := ex.queue.foldl (fun h t => rejectAt h t.pid GoErr.executorStopped)
                        ex.heap }

/-- Running executor holding one queued task bound to the single pending
promise of its heap (the state reached by one `Exec` on a fresh
two-capacity executor); used to evaluate the `Stop` drain concretely. -/
def exOneQueued : Executor :=
  { stopped := false, cap := 2,
    queue := [{ pid := 0, fn := (some (GoVal.prim 5), none) }],
    heap := [New] }

/-!
The combinator bodies. `WhenAll`/`WhenAny` submit a single function to the
executor; that function loops over the input promises in argument order,
calling `Result()` on each. The models below run that loop over the list of
input promise states; `none` means the loop is blocked in some `Result()`
call (an input not yet finalized). Since `Result` only reads its promise,
the second component returns the input promises as left by the loop —
identically the input list, which is exactly the no-cancellation frame
property of the source.
-/

/-- The loop of `WhenAll`'s submitted function over the input promises:
collects `l[i] = res` in order, returning early with the first error by
index. `none` = blocked awaiting an input. -/
def whenAllGo : List Promise → Option (Except GoErr (List (Option GoVal))) × List Promise
  | [] => (some (Except.ok []), [])
  | p :: rest =>
      match p.Result with
      | none => (none, p :: rest)
      | some (_, some e) => (some (Except.error e), p :: rest)
      | some (res, none) =>
          ((whenAllGo rest).1.map (fun x => x.map (fun l => res :: l)),
           p :: (whenAllGo rest).2)

/-- The `return l, nil` / `return nil, err` at the end of `WhenAll`'s
function, as the `(interface\x7b\x7d, error)` pair handed to the worker. -/
def execOutcome : Except GoErr (List (Option GoVal)) → Option GoVal × Option GoErr
  | Except.ok l => (some (GoVal.list l), none)
  | Except.error e => (none, some e)

/-- The composite promise of `WhenAll(e, p...)` once the submitted task has
been dequeued and run by a worker (given the states of the input promises);
`none` = the task is still blocked on an input. -/
def WhenAllComposite (ps : List Promise) : Option Promise :=
  (whenAllGo ps).1.map (fun r => workerFinalize New (execOutcome r))

/-- The loop of `WhenAny`'s submitted function: `res, err` range over the
inputs in index order, returning early at the first `err == nil`; after the
loop it returns `nil, err` with `err` the last value assigned (the
accumulator, initially nil). -/
def whenAnyGo (err : Option GoErr) :
    List Promise → Option (Option GoVal × Option GoErr) × List Promise
  | [] => (some (none, err), [])
  | p :: rest =>
      match p.Result with
      | none => (none, p :: rest)
      | some (res, none) => (some (res, none), p :: rest)
      | some (_, some e) =>
          ((whenAnyGo (some e) rest).1, p :: (whenAnyGo (some e) rest).2)

/-- The composite promise of `WhenAny(e, p...)` once the submitted task has
been dequeued and run by a worker. -/
def WhenAnyComposite (ps : List Promise) : Option Promise :=
  (whenAnyGo none ps).1.map (workerFinalize New)

/-! Helper lemmas. -/

theorem applyOp_eq (p : Promise) (op : FinalOp) :
    applyOp p op = p.finalize (opPair op).1 (opPair op).2 := by
  cases op <;> rfl

theorem finalize_done (p : Promise) (v : Option GoVal) (e : Option GoErr)
    (h : p.done = false) :
    p.finalize v e = { done := true, res := v, err := e } := by
  simp [Promise.finalize, h]

theorem finalize_of_done (p : Promise) (v : Option GoVal) (e : Option GoErr)
    (h : p.done = true) : p.finalize v e = p := by
  simp [Promise.finalize, h]

theorem result_of_finalize (p : Promise) (v : Option GoVal) (e : Option GoErr)
    (h : p.done = false) : (p.finalize v e).Result = some (v, e) := by
  rw [finalize_done p v e h]; rfl

theorem reject_pending_result (p : Promise) (e : GoErr) (h : p.done = false) :
    (p.Reject e).Result = some (none, some e) :=
  result_of_finalize p none (some e) h

/-! Claim theorems about the `Promise` operations. -/

/-- C1: after the first finalizing call among `Resolve`/`Reject`/`Cancel`
takes effect on a pending promise, every subsequent such call leaves the
promise unchanged (silently ignored), and `Result` returns exactly the pair
stored by that first call. -/
theorem finalize_first_writer_wins (p : Promise) (op : FinalOp)
    (h : p.done = false) :
    (∀ op2, applyOp (applyOp p op) op2 = applyOp p op) ∧
    (applyOp p op).Result = some (opPair op) := by
  rw [applyOp_eq p op, finalize_done p _ _ h]
  refine ⟨fun op2 => ?_, rfl⟩
  rw [applyOp_eq, finalize_of_done]
  rfl

/-- Witness for C1: resolving a fresh promise with `prim 3`, then cancelling
it, leaves the resolved state; `Result` returns `(prim 3, nil)`. -/
theorem finalize_first_writer_wins_witness :
    applyOp (applyOp New (FinalOp.resolve (some (GoVal.prim 3)))) FinalOp.cancel
        = applyOp New (FinalOp.resolve (some (GoVal.prim 3))) ∧
    (applyOp New (FinalOp.resolve (some (GoVal.prim 3)))).Result
        = some (opPair (FinalOp.resolve (some (GoVal.prim 3)))) :=
  ⟨(finalize_first_writer_wins New (FinalOp.resolve (some (GoVal.prim 3))) rfl).1
      FinalOp.cancel,
   (finalize_first_writer_wins New (FinalOp.resolve (some (GoVal.prim 3))) rfl).2⟩

/-- C2 fails on the code: `finalize` is a check-then-act select without
exclusion, so in the interleaving where two concurrent `Resolve` calls both
pass the readiness check before either writes (`raceDemo`), `close(done)`
executes twice — the readiness signal double-fires (a runtime panic in Go)
— and the stored value is the second writer's, not the first's. -/
theorem finalize_race_double_close :
    raceDemo.closes = 2 ∧ raceDemo.p.res = some (GoVal.prim 2) :=
  ⟨rfl, rfl⟩

/-- C7: if the external signal fires while the promise is pending,
`ResultWithContext` returns the signal's own error with a nil value; the
promise is untouched — a plain `Result` still blocks, and once the promise
finalizes, `Result` returns the actual stored outcome. -/
theorem resultWithContext_signal_first (p : Promise) (ctx : Ctx)
    (h1 : p.done = false) (h2 : ctx.done = true) :
    p.ResultWithContext ctx = some (none, some ctx.err) ∧
    p.Result = none ∧
    ∀ v e, (p.finalize v e).Result = some (v, e) := by
  refine ⟨by simp [Promise.ResultWithContext, h1, h2],
          by simp [Promise.Result, h1],
          fun v e => result_of_finalize p v e h1⟩

/-- Witness for C7: a fresh promise with a fired context returns the
context's error, still blocks a plain `Result`, and returns `prim 1` after
being finalized with it. -/
theorem resultWithContext_signal_first_witness :
    New.ResultWithContext { done := true, err := GoErr.ctxError 7 }
        = some (none, some (GoErr.ctxError 7)) ∧
    New.Result = none ∧
    (New.finalize (some (GoVal.prim 1)) none).Result
        = some (some (GoVal.prim 1), none) :=
  ⟨(resultWithContext_signal_first New { done := true, err := GoErr.ctxError 7 }
      rfl rfl).1,
   (resultWithContext_signal_first New { done := true, err := GoErr.ctxError 7 }
      rfl rfl).2.1,
   (resultWithContext_signal_first New { done := true, err := GoErr.ctxError 7 }
      rfl rfl).2.2 (some (GoVal.prim 1)) none⟩

/-- C8: `Canceled` is true exactly when the promise is finalized and its
stored error is the `ErrCanceled` sentinel; in particular it is false for a
pending promise, a resolved promise, or one rejected with any other error. -/
theorem canceled_iff (p : Promise) :
    p.Canceled = true ↔ (p.done = true ∧ p.err = some GoErr.canceled) := by
  cases hd : p.done <;> simp [Promise.Canceled, hd]

/-- C9: `CancelAll` over a list of pending promises leaves every element
finalized in the canceled state: done, `Canceled` true, and `Result`
returning the `ErrCanceled` sentinel. -/
theorem cancelAll_cancels_pending (ps : List Promise)
    (h : ∀ p ∈ ps, p.done = false) :
    ∀ q ∈ CancelAll ps,
      q.done = true ∧ q.Canceled = true ∧
      q.Result = some (none, some GoErr.canceled) := by
  intro q hq
  simp only [CancelAll, List.mem_map] at hq
  obtain ⟨p, hp, rfl⟩ := hq
  have hd := h p hp
  rw [Promise.Cancel, Promise.Reject, finalize_done p _ _ hd]
  exact ⟨rfl, rfl, rfl⟩

/-- Witness for C9: cancelling five freshly created promises leaves each in
the canceled state. -/
theorem cancelAll_cancels_pending_witness :
    (New.Cancel).done = true ∧ (New.Cancel).Canceled = true ∧
    (New.Cancel).Result = some (none, some GoErr.canceled) :=
  cancelAll_cancels_pending (List.replicate 5 New)
    (fun p hp => by rw [List.eq_of_mem_replicate hp]; rfl)
    New.Cancel
    (by simp [CancelAll])

/-- C10: `WhenAny` of an empty argument list yields a composite promise that
is finalized (not pending) with a nil value and a nil error: its task body
runs, returns `(nil, nil)`, and the worker resolves the promise with nil. -/
theorem whenAny_empty_resolves_nil :
    WhenAnyComposite [] = some { done := true, res := none, err := none } ∧
    (Promise.mk true none none).Result = some (none, none) ∧
    (Promise.mk true none none).Canceled = false :=
  ⟨rfl, rfl, rfl⟩

/-! Helper lemmas about `rejectAt` and the `Stop` drain. -/

theorem getD_set_self (l : List Promise) (i : Nat) (a : Promise)
    (h : i < l.length) : (l.set i a).getD i New = a := by
  rw [List.getD_eq_getD_get?, List.get?_set_eq_of_lt _ h]
  rfl

theorem getD_set_ne (l : List Promise) {i j : Nat} (a : Promise)
    (h : i ≠ j) : (l.set i a).getD j New = l.getD j New := by
  rw [List.getD_eq_getD_get?, List.getD_eq_getD_get?, List.get?_set_ne _ _ h]

theorem rejectAt_length (l : List Promise) (i : Nat) (e : GoErr) :
    (rejectAt l i e).length = l.length := by
  simp [rejectAt]

theorem rejectAt_getD_self (l : List Promise) (i : Nat) (e : GoErr)
    (h : i < l.length) : (rejectAt l i e).getD i New = (l.getD i New).Reject e :=
  getD_set_self l i _ h

theorem rejectAt_getD_ne (l : List Promise) {i j : Nat} (e : GoErr)
    (h : i ≠ j) : (rejectAt l i e).getD j New = l.getD j New :=
  getD_set_ne l _ h

theorem drain_length (ts : List Task) (l : List Promise) :
    (ts.foldl (fun h t => rejectAt h t.pid GoErr.executorStopped) l).length
      = l.length := by
  induction ts generalizing l with
  | nil => rfl
  | cons t ts ih => rw [List.foldl_cons, ih, rejectAt_length]

theorem drain_getD_not_mem (ts : List Task) (l : List Promise) (i : Nat)
    (hni : ∀ t ∈ ts, t.pid ≠ i) :
    (ts.foldl (fun h t => rejectAt h t.pid GoErr.executorStopped) l).getD i New
      = l.getD i New := by
  induction ts generalizing l with
  | nil => rfl
  | cons t ts ih =>
      rw [List.foldl_cons, ih _ (fun u hu => hni u (List.mem_cons_of_mem t hu)),
        rejectAt_getD_ne _ _ (hni t (List.mem_cons_self t ts))]

theorem drain_getD_mem (ts : List Task) (l : List Promise) (t : Task)
    (hmem : t ∈ ts) (hnd : (ts.map Task.pid).Nodup) (hlt : t.pid < l.length) :
    (ts.foldl (fun h u => rejectAt h u.pid GoErr.executorStopped) l).getD t.pid New
      = (l.getD t.pid New).Reject GoErr.executorStopped := by
  induction ts generalizing l with
  | nil => cases hmem
  | cons u ts ih =>
      rw [List.map_cons, List.nodup_cons] at hnd
      rw [List.foldl_cons]
      rcases List.mem_cons.mp hmem with rfl | hmem2
      · rw [drain_getD_not_mem ts _ t.pid
            (fun w hw hweq => hnd.1 (hweq ▸ List.mem_map_of_mem Task.pid hw)),
          rejectAt_getD_self l t.pid _ hlt]
      · have hne : u.pid ≠ t.pid := fun hequ =>
          hnd.1 (hequ ▸ List.mem_map_of_mem Task.pid hmem2)
        rw [ih _ hmem2 hnd.2 (by rw [rejectAt_length]; exact hlt),
          rejectAt_getD_ne _ _ hne]

/-! Claim theorems about the executor. -/

/-- C5: a submission made after the executor's stop signal is set never
blocks (`Exec` returns at once), never enqueues the task (the queue is
unchanged and the new task is not in it, so its function is never run by a
worker), and returns a promise already rejected with `ErrExecutorStopped`. -/
theorem exec_after_stop (ex : Executor) (fn : Option GoVal × Option GoErr)
    (h : ex.stopped = true)
    (hwf : ∀ t ∈ ex.queue, t.pid < ex.heap.length) :
    (ex.Exec fn).isSome = true ∧
    ∀ pid ex2, ex.Exec fn = some (pid, ex2) →
      ex2.queue = ex.queue ∧
      Task.mk pid fn ∉ ex2.queue ∧
      ex2.heap.getD pid New = New.Reject GoErr.executorStopped ∧
      (ex2.heap.getD pid New).Result = some (none, some GoErr.executorStopped) := by
  rw [Executor.Exec]
  simp only [h, if_true, Option.isSome_some, true_and]
  intro pid ex2 heq
  injection heq with heq2
  injection heq2 with hpid hex2
  subst hpid
  subst hex2
  refine ⟨rfl, fun hing => ?_, ?_, ?_⟩
  · exact absurd rfl (Nat.ne_of_lt (hwf _ hing))
  · rw [List.getD_append_right _ _ _ _ (Nat.le_refl _), Nat.sub_self]
    rfl
  · rw [List.getD_append_right _ _ _ _ (Nat.le_refl _), Nat.sub_self]
    rfl

/-- Witness for C5: submitting to a freshly stopped executor yields a
promise already rejected with `ErrExecutorStopped`. -/
theorem exec_after_stop_witness :
    (((StartExecutor 1).Stop).Exec (none, none)).isSome = true ∧
    (({ stopped := true, cap := 1, queue := [],
        heap := [New.Reject GoErr.executorStopped] } : Executor).heap.getD 0 New).Result
      = some (none, some GoErr.executorStopped) :=
  ⟨(exec_after_stop ((StartExecutor 1).Stop) (none, none) rfl
      (fun t ht => absurd ht (List.not_mem_nil t))).1,
   ((exec_after_stop ((StartExecutor 1).Stop) (none, none) rfl
      (fun t ht => absurd ht (List.not_mem_nil t))).2 0
      { stopped := true, cap := 1, queue := [],
        heap := [New.Reject GoErr.executorStopped] } rfl).2.2.2⟩

/-- C6: the first `Stop` on a running executor sets the stop signal, leaves
an empty queue, and rejects every queued pending task's promise with
`ErrExecutorStopped`; any `Stop` of an already-stopped executor is a no-op;
afterwards workers do no further work and later submissions never enqueue a
task. -/
theorem stop_idempotent_drains (ex : Executor)
    (hstop : ex.stopped = false)
    (hnd : (ex.queue.map Task.pid).Nodup)
    (hwf : ∀ t ∈ ex.queue, t.pid < ex.heap.length)
    (hpend : ∀ t ∈ ex.queue, (ex.heap.getD t.pid New).done = false) :
    (ex.Stop).stopped = true ∧
    (ex.Stop).queue = [] ∧
    (∀ ex2 : Executor, ex2.stopped = true → ex2.Stop = ex2) ∧
    (∀ t ∈ ex.queue,
      (ex.Stop).heap.getD t.pid New
          = (ex.heap.getD t.pid New).Reject GoErr.executorStopped ∧
      ((ex.Stop).heap.getD t.pid New).Result
          = some (none, some GoErr.executorStopped)) ∧
    (ex.Stop).workerStep = none ∧
    (∀ fn pid ex2, (ex.Stop).Exec fn = some (pid, ex2) → ex2.queue = []) := by
  have hs1 : (ex.Stop).stopped = true := by simp [Executor.Stop, hstop]
  have hs2 : (ex.Stop).queue = [] := by simp [Executor.Stop, hstop]
  refine ⟨hs1, hs2, fun ex2 h2 => by simp [Executor.Stop, h2], ?_, ?_, ?_⟩
  · intro t ht
    have hheap : (ex.Stop).heap
        = ex.queue.foldl (fun h u => rejectAt h u.pid GoErr.executorStopped)
            ex.heap := by
      simp [Executor.Stop, hstop]
    rw [hheap, drain_getD_mem ex.queue ex.heap t ht hnd (hwf t ht)]
    exact ⟨rfl, reject_pending_result _ _ (hpend t ht)⟩
  · rw [Executor.workerStep, hs1]
    rfl
  · intro fn pid ex2 heq
    rw [Executor.Exec] at heq
    simp only [hs1, if_true] at heq
    injection heq with heq2
    injection heq2 with _ hex2
    rw [← hex2, ← hs2]

/-- Witness for C6: stopping an executor holding one queued pending task
drains the queue and leaves that task's promise rejected with
`ErrExecutorStopped`. -/
theorem stop_idempotent_drains_witness :
    (exOneQueued.Stop).queue = [] ∧
    ((exOneQueued.Stop).heap.getD 0 New).Result
      = some (none, some GoErr.executorStopped) := by
  have h := stop_idempotent_drains exOneQueued
    rfl (by simp [exOneQueued]) (by simp [exOneQueued]) (by simp [exOneQueued]; rfl)
  exact ⟨h.2.1, (h.2.2.2.1 { pid := 0, fn := (some (GoVal.prim 5), none) }
    (by simp [exOneQueued])).2⟩

/-! Helper lemmas about the combinator loops. -/

theorem whenAnyGo_success (err0 : Option GoErr) (pre : List Promise)
    (q : Promise) (rest : List Promise)
    (hpre : ∀ p ∈ pre, p.done = true ∧ p.err ≠ none)
    (hq : q.done = true) (hqe : q.err = none) :
    (whenAnyGo err0 (pre ++ q :: rest)).1 = some (q.res, none) := by
  induction pre generalizing err0 with
  | nil =>
      simp only [List.nil_append, whenAnyGo, Promise.Result, hq, if_true, hqe]
  | cons a pre ih =>
      obtain ⟨had, hae⟩ := hpre a (List.mem_cons_self a pre)
      obtain ⟨e, he⟩ := Option.ne_none_iff_exists'.mp hae
      simp only [List.cons_append, whenAnyGo, Promise.Result, had, if_true, he]
      exact ih (some e) (fun p hp => hpre p (List.mem_cons_of_mem a hp))

theorem whenAnyGo_all_err (err0 : Option GoErr) (pre : List Promise)
    (q : Promise) (hpre : ∀ p ∈ pre, p.done = true ∧ p.err ≠ none)
    (hq : q.done = true) (e : GoErr) (hqe : q.err = some e) :
    (whenAnyGo err0 (pre ++ [q])).1 = some (none, some e) := by
  induction pre generalizing err0 with
  | nil =>
      simp only [List.nil_append, whenAnyGo, Promise.Result, hq, if_true, hqe]
  | cons a pre ih =>
      obtain ⟨had, hae⟩ := hpre a (List.mem_cons_self a pre)
      obtain ⟨e2, he2⟩ := Option.ne_none_iff_exists'.mp hae
      simp only [List.cons_append, whenAnyGo, Promise.Result, had, if_true, he2]
      exact ih (some e2) (fun p hp => hpre p (List.mem_cons_of_mem a hp))

theorem whenAllGo_frame (ps : List Promise) : (whenAllGo ps).2 = ps := by
  induction ps with
  | nil => rfl
  | cons p rest ih =>
      rw [whenAllGo]
      cases hr : p.Result with
      | none => rfl
      | some pr =>
          obtain ⟨res, err⟩ := pr
          cases err with
          | none => simpa using ih
          | some e => rfl

theorem whenAllGo_ok (ps : List Promise)
    (h : ∀ p ∈ ps, p.done = true ∧ p.err = none) :
    (whenAllGo ps).1 = some (Except.ok (ps.map Promise.res)) := by
  induction ps with
  | nil => rfl
  | cons p rest ih =>
      obtain ⟨hd, he⟩ := h p (List.mem_cons_self p rest)
      simp only [whenAllGo, Promise.Result, hd, if_true, he,
        ih (fun u hu => h u (List.mem_cons_of_mem p hu))]
      rfl

theorem whenAllGo_first_err (pre : List Promise) (q : Promise)
    (rest : List Promise) (hpre : ∀ p ∈ pre, p.done = true ∧ p.err = none)
    (hq : q.done = true) (e : GoErr) (hqe : q.err = some e) :
    (whenAllGo (pre ++ q :: rest)).1 = some (Except.error e) := by
  induction pre with
  | nil =>
      simp only [List.nil_append, whenAllGo, Promise.Result, hq, if_true, hqe]
  | cons a pre ih =>
      obtain ⟨had, hae⟩ := hpre a (List.mem_cons_self a pre)
      simp only [List.cons_append, whenAllGo, Promise.Result, had, if_true, hae]
      have hih := ih (fun p hp => hpre p (List.mem_cons_of_mem a hp))
      simp only [List.append_eq]
      rw [hih]
      rfl

/-! Claim theorems about the combinators. -/

/-- C3: `WhenAny` scans its inputs in index order: the composite promise
resolves with the value of the first input, by index, whose `Result`
reports no error (regardless of any later inputs); and when every input
errors, the composite promise is rejected with the error of the last
(highest-index) input. -/
theorem whenAny_index_order :
    (∀ (pre : List Promise) (q : Promise) (rest : List Promise),
        (∀ p ∈ pre, p.done = true ∧ p.err ≠ none) →
        q.done = true → q.err = none →
          WhenAnyComposite (pre ++ q :: rest) = some (New.Resolve q.res)) ∧
    (∀ (pre : List Promise) (q : Promise),
        (∀ p ∈ pre, p.done = true ∧ p.err ≠ none) →
        q.done = true → ∀ e, q.err = some e →
          WhenAnyComposite (pre ++ [q]) = some (New.Reject e)) := by
  constructor
  · intro pre q rest hpre hq hqe
    rw [WhenAnyComposite, whenAnyGo_success none pre q rest hpre hq hqe]
    rfl
  · intro pre q hpre hq e hqe
    rw [WhenAnyComposite, whenAnyGo_all_err none pre q hpre hq e hqe]
    rfl

/-- Witness for C3: with inputs `[error 1, value 7]` the composite resolves
with `7`; with inputs `[error 1, error 2]` it is rejected with error `2`,
the last in the argument list. -/
theorem whenAny_index_order_witness :
    WhenAnyComposite [{ done := true, res := none, err := some (GoErr.userError 1) },
        { done := true, res := some (GoVal.prim 7), err := none }]
      = some (New.Resolve (some (GoVal.prim 7))) ∧
    WhenAnyComposite [{ done := true, res := none, err := some (GoErr.userError 1) },
        { done := true, res := none, err := some (GoErr.userError 2) }]
      = some (New.Reject (GoErr.userError 2)) := by
  constructor
  · exact whenAny_index_order.1
      [{ done := true, res := none, err := some (GoErr.userError 1) }]
      { done := true, res := some (GoVal.prim 7), err := none } []
      (fun p hp => by rw [List.mem_singleton] at hp; subst hp; exact ⟨rfl, by simp⟩)
      rfl rfl
  · exact whenAny_index_order.2
      [{ done := true, res := none, err := some (GoErr.userError 1) }]
      { done := true, res := none, err := some (GoErr.userError 2) }
      (fun p hp => by rw [List.mem_singleton] at hp; subst hp; exact ⟨rfl, by simp⟩)
      rfl (GoErr.userError 2) rfl

/-- C4: `WhenAll` awaits its inputs in the caller-supplied order; when all
succeed its composite promise resolves with the same-length, same-order
sequence of their values; on the first input by index whose `Result`
reports an error, the composite is rejected with exactly that error; and
the loop leaves every input promise exactly as it found it — in particular
the remaining inputs are not cancelled or otherwise finalized. -/
theorem whenAll_order_and_first_error :
    (∀ ps : List Promise, (∀ p ∈ ps, p.done = true ∧ p.err = none) →
        WhenAllComposite ps
            = some (New.Resolve (some (GoVal.list (ps.map Promise.res)))) ∧
        (ps.map Promise.res).length = ps.length ∧
        (whenAllGo ps).2 = ps) ∧
    (∀ (pre : List Promise) (q : Promise) (rest : List Promise),
        (∀ p ∈ pre, p.done = true ∧ p.err = none) →
        q.done = true → ∀ e, q.err = some e →
          WhenAllComposite (pre ++ q :: rest) = some (New.Reject e) ∧
          (whenAllGo (pre ++ q :: rest)).2 = pre ++ q :: rest) := by
  constructor
  · intro ps h
    refine ⟨?_, List.length_map ps Promise.res, whenAllGo_frame ps⟩
    rw [WhenAllComposite, whenAllGo_ok ps h]
    rfl
  · intro pre q rest hpre hq e hqe
    refine ⟨?_, whenAllGo_frame (pre ++ q :: rest)⟩
    rw [WhenAllComposite, whenAllGo_first_err pre q rest hpre hq e hqe]
    rfl

/-- Witness for C4: two successful inputs yield the ordered two-element
sequence; an errored first input followed by a still-pending second yields
that first error while the pending input is left untouched. -/
theorem whenAll_order_and_first_error_witness :
    WhenAllComposite [{ done := true, res := some (GoVal.prim 1), err := none },
        { done := true, res := some (GoVal.prim 2), err := none }]
      = some (New.Resolve
          (some (GoVal.list [some (GoVal.prim 1), some (GoVal.prim 2)]))) ∧
    WhenAllComposite [{ done := true, res := none, err := some (GoErr.userError 3) },
        New]
      = some (New.Reject (GoErr.userError 3)) ∧
    (whenAllGo [{ done := true, res := none, err := some (GoErr.userError 3) },
        New]).2
      = [{ done := true, res := none, err := some (GoErr.userError 3) }, New] := by
  refine ⟨?_, ?_, ?_⟩
  · exact (whenAll_order_and_first_error.1
      [{ done := true, res := some (GoVal.prim 1), err := none },
       { done := true, res := some (GoVal.prim 2), err := none }]
      (fun p hp => by
        rcases List.mem_cons.mp hp with rfl | hp2
        · exact ⟨rfl, rfl⟩
        · rw [List.mem_singleton] at hp2; subst hp2; exact ⟨rfl, rfl⟩)).1
  · exact (whenAll_order_and_first_error.2 []
      { done := true, res := none, err := some (GoErr.userError 3) } [New]
      (fun p hp => absurd hp (List.not_mem_nil p))
      rfl (GoErr.userError 3) rfl).1
  · exact (whenAll_order_and_first_error.2 []
      { done := true, res := none, err := some (GoErr.userError 3) } [New]
      (fun p hp => absurd hp (List.not_mem_nil p))
      rfl (GoErr.userError 3) rfl).2

end PromiseSpec
